import Mathlib

/-!
# Serial2CSV: the byte loop of serial2csv.c

A shallow embedding of the read loop of `main` in
`UNIX-Serial-2-CSV/serial2csv.c` and `WIN-Serial-2-CSV/serial2csv.c`.

* Bytes are natural numbers (`'\n'` is 10, `'\0'` is 0).
* `char buffer[BUFFER_SIZE]` is a list of `BUFFER_SIZE` bytes; `int buffer_index`
  is an integer.  A write outside the array is undefined behaviour in C and makes
  the step return `none`.
* `float` and `double` values are rationals; every floating operation rounds its
  exact result to its own format (round to nearest, ties to even; `int` has 32 bits).
  A result that is not a finite number of the format, and a conversion to `int` that
  is out of range, is `none`.
* What the program prints is recorded as a list of events.
-/

namespace Serial2CSV

/-! ## Constants -/

/-- Size of `buffer` (`#define BUFFER_SIZE 1024`). -/
def BUFFER_SIZE : ℕ := 1024

/-- Size of `chunk` (`#define CHUNK_SIZE 256`). -/
def CHUNK_SIZE : ℕ := 256

/-- The byte `'\n'`. -/
def NEWLINE : ℕ := 10

/-- Smallest value of a 32-bit `int`. -/
def INT_MIN : ℤ := -2147483648

/-- Largest value of a 32-bit `int`. -/
def INT_MAX : ℤ := 2147483647

/-- The two variables of the "DSP Initialization" section. -/
structure Params where
  scaling_factor : ℚ
  offset : ℚ

/-- UNIX variant: `float scaling_factor = 1.5; float offset = 2024;`. -/
def unixParams : Params := ⟨3 / 2, 2024⟩

/-- Windows variant: `float scaling_factor = 2.5; float offset = 2024;`. -/
def winParams : Params := ⟨5 / 2, 2024⟩

/-! ## Floating point -/

/-- Floor of the base-2 logarithm of a natural number, by halving (`fuel` halvings at most). -/
def log2Fuel : ℕ → ℕ → ℕ
  | 0, _ => 0
  | fuel + 1, n => if n < 2 then 0 else log2Fuel fuel (n / 2) + 1

/-- Floor of the base-2 logarithm of `|q|`, for `q ≠ 0`. -/
def ilog2 (q : ℚ) : ℤ :=
  let k : ℤ := (log2Fuel q.num.natAbs q.num.natAbs : ℤ) - (log2Fuel q.den q.den : ℤ)
  if (2 : ℚ) ^ k ≤ |q| then k else k - 1

/-- Nearest integer, ties to the even one. -/
def roundNearestEven (q : ℚ) : ℤ :=
  let f := ⌊q⌋
  let r := q - f
  if r < 1 / 2 then f else if 1 / 2 < r then f + 1 else if f % 2 = 0 then f else f + 1

/-- Rounding of an exact result to a binary floating format with `prec` significant bits
and exponents `emin .. emax` (subnormals included): `none` when the rounded value is not
finite in the format. -/
def roundFloat (prec : ℕ) (emin emax : ℤ) (q : ℚ) : Option ℚ :=
  if q = 0 then some 0 else
  let e : ℤ := max (ilog2 q - ((prec : ℤ) - 1)) (emin - ((prec : ℤ) - 1))
  let r : ℚ := (roundNearestEven (q / 2 ^ e) : ℚ) * 2 ^ e
  if |r| < 2 ^ (emax + 1) then some r else none

/-- Rounding to `double`. -/
def roundDouble (q : ℚ) : Option ℚ := roundFloat 53 (-1022) 1023 q

/-- Rounding to `float`. -/
def roundSingle (q : ℚ) : Option ℚ := roundFloat 24 (-126) 127 q

/-- Truncation toward zero. -/
def truncQ (q : ℚ) : ℤ := if 0 ≤ q then ⌊q⌋ else ⌈q⌉

/-- Conversion of a floating value to `int`: the fractional part is discarded; a value whose
integral part is not an `int` is undefined behaviour (`none`). -/
def toInt (q : ℚ) : Option ℤ :=
  let t := truncQ q
  if INT_MIN ≤ t ∧ t ≤ INT_MAX then some t else none

/-- Conversion of an `int` to `float`. -/
def intToFloat (n : ℤ) : Option ℚ := roundSingle (n : ℚ)

/-- The `float` subtraction `a - b`. -/
def fsub (a b : ℚ) : Option ℚ := roundSingle (a - b)

/-- The `float` multiplication `a * b`. -/
def fmul (a b : ℚ) : Option ℚ := roundSingle (a * b)

/-! ## The C library's `atof` -/

/-- The `isspace` of the C locale. -/
def isspace (c : ℕ) : Bool := c == 32 || (decide (9 ≤ c) && decide (c ≤ 13))

/-- The `isdigit` of the C library. -/
def isdigit (c : ℕ) : Bool := decide (48 ≤ c) && decide (c ≤ 57)

/-- The `isxdigit` of the C library. -/
def isxdigit (c : ℕ) : Bool :=
  isdigit c || (decide (65 ≤ c) && decide (c ≤ 70)) || (decide (97 ≤ c) && decide (c ≤ 102))

/-- The `tolower` of the C locale. -/
def tolower (c : ℕ) : ℕ := if 65 ≤ c ∧ c ≤ 90 then c + 32 else c

/-- The C string stored at the start of a byte array: the bytes before the first `'\0'`. -/
def cstring (buf : List ℕ) : List ℕ := buf.takeWhile (fun c => c != 0)

/-- Value of a sequence of decimal digits. -/
def digitsValue (ds : List ℕ) : ℕ := ds.foldl (fun acc c => 10 * acc + (c - 48)) 0

/-- An optional sign: whether it is `'-'`, and the text after it. -/
def parseSign : List ℕ → Bool × List ℕ
  | 45 :: t => (true, t)
  | 43 :: t => (false, t)
  | s => (false, s)

/-- Whether `s` starts with the lower-case word `pat`, ignoring case. -/
def startsWithCI (pat s : List ℕ) : Bool := (s.take pat.length).map tolower == pat

/-- Whether the text after the sign is one of the forms of `strtod` that are not decimal:
`inf`, `nan`, or a hexadecimal number `0x...`. -/
def isSpecialForm (s : List ℕ) : Bool :=
  startsWithCI [105, 110, 102] s || startsWithCI [110, 97, 110] s ||
  match s with
  | 48 :: x :: h :: rest =>
      tolower x == 120 &&
        (isxdigit h || (h == 46 && match rest with
          | h2 :: _ => isxdigit h2
          | [] => false))
  | _ => false

/-- The exponent part `e[sign]digits` at the head of `s` (0 when there is none). -/
def parseExponent : List ℕ → ℤ
  | [] => 0
  | e :: rest =>
      if tolower e = 101 then
        let ds := (parseSign rest).2.takeWhile isdigit
        if ds = [] then 0
        else if (parseSign rest).1 then -(digitsValue ds : ℤ) else (digitsValue ds : ℤ)
      else 0

/-- The digits after the point, when the text at hand starts with a point. -/
def fractionDigits : List ℕ → List ℕ
  | 46 :: t => t.takeWhile isdigit
  | _ => []

/-- The text after the point and its digits (the text itself when there is no point). -/
def afterFraction : List ℕ → List ℕ
  | 46 :: t => t.dropWhile isdigit
  | r => r

/-- The `strtod` of the C standard on a text, for decimal numbers: leading white space, an
optional sign, digits with an optional point, an optional exponent; what follows is ignored.
Without such a number at the start the result is 0 ("no conversion").  The result is the
`double` nearest to the decimal value.  `none`: the text starts with `inf`, `nan` or a
hexadecimal number (not covered here), or the value overflows. -/
def strtod (s : List ℕ) : Option ℚ :=
  let s2 := (parseSign (s.dropWhile isspace)).2
  if isSpecialForm s2 then none else
  let ip := s2.takeWhile isdigit
  let fp := fractionDigits (s2.dropWhile isdigit)
  let r2 := afterFraction (s2.dropWhile isdigit)
  if ip = [] ∧ fp = [] then some 0 else
  let v : ℚ := (digitsValue (ip ++ fp) : ℚ) * (10 : ℚ) ^ (parseExponent r2 - (fp.length : ℤ))
  roundDouble (if (parseSign (s.dropWhile isspace)).1 then -v else v)

/-- The results of `strtod` that are not finite numbers. -/
inductive NonFinite
  | infinity (neg : Bool)
  | nan
  deriving DecidableEq

/-- The forms of `strtod` that denote no finite number: after white space and an optional
sign, the word `inf` (also the start of `infinity`) is converted to an infinity and the word
`nan` to a NaN, in any letter case and whatever follows the word. -/
def strtodNonFinite (s : List ℕ) : Option NonFinite :=
  if startsWithCI [105, 110, 102] (parseSign (s.dropWhile isspace)).2 then
    some (NonFinite.infinity (parseSign (s.dropWhile isspace)).1)
  else if startsWithCI [110, 97, 110] (parseSign (s.dropWhile isspace)).2 then
    some NonFinite.nan
  else none

/-- The call `atof(buffer)`: `strtod` on the C string stored in `buffer`. -/
def atof (buffer : List ℕ) : Option ℚ := strtod (cstring buffer)

/-! ## The processing of one record -/

/-- The statements between `raw_val = atof(buffer);` and `proc_val = raw_val;`, with
`int raw_val` and `float proc_val`.  The result is `proc_val`. -/
def processRecord (p : Params) (buffer : List ℕ) : Option ℚ :=
  (atof buffer).bind fun parsed =>
  (toInt parsed).bind fun raw0 =>                       -- raw_val = atof(buffer);
  (intToFloat raw0).bind fun f0 =>
  (fsub f0 p.offset).bind fun f1 =>
  (toInt f1).bind fun raw1 =>                           -- raw_val -= offset;
  (intToFloat raw1).bind fun f2 =>
  (fmul f2 p.scaling_factor).bind fun f3 =>
  (toInt f3).bind fun raw2 =>                           -- raw_val *= scaling_factor;
  intToFloat raw2                                       -- proc_val = raw_val;

/-- The processing of a record given as text: the buffer holds the text and its `'\0'`. -/
def processText (p : Params) (text : List ℕ) : Option ℚ := processRecord p (text ++ [0])

/-- Decimal digits of `n`, padded with zeros on the left to `width` digits. -/
def padDigits (width n : ℕ) : String :=
  String.mk (List.replicate (width - (Nat.toDigits 10 n).length) '0' ++ Nat.toDigits 10 n)

/-- The text printed by `%f`: six digits after the point, correctly rounded. -/
def fmt_f (q : ℚ) : String :=
  let scaled : ℕ := (roundNearestEven (|q| * 1000000)).toNat
  (if q < 0 then "-" else "") ++ padDigits 1 (scaled / 1000000) ++ "." ++
    padDigits 6 (scaled % 1000000)

/-! ## The byte loop -/

/-- What the loop does that can be observed.  The value carried by `stdout` and `csvWrite`
is `proc_val` (`none` when the model does not determine it). -/
inductive Event
  /-- The Line Buffer content `buffer[0 .. buffer_index)` at a `'\n'`, handed to `atof`. -/
  | record (text : List ℕ)
  /-- The call `printf("Processed value: %f\n", proc_val)`. -/
  | stdout (proc_val : Option ℚ)
  /-- The call `fprintf(csvFile, "%f\n", proc_val)`. -/
  | csvWrite (proc_val : Option ℚ)
  /-- The call `fflush(csvFile)`. -/
  | csvFlush
  /-- The call `fprintf(stderr, "Buffer overflow, discarding data\n")`. -/
  | overflow
  /-- The report of a failed read (`perror` on UNIX, `printf` on Windows). -/
  | readError
  /-- The pause at the end of an iteration (`usleep(10000)`, `Sleep(10)`). -/
  | sleep
  deriving DecidableEq

/-- The Line Buffer: `char buffer[BUFFER_SIZE]` and `int buffer_index`. -/
structure LineState where
  buffer : List ℕ
  buffer_index : ℤ
  deriving DecidableEq

/-- The assignment `buffer[i] = c`; outside the array it is undefined behaviour. -/
def writeBuf (buffer : List ℕ) (i : ℤ) (c : ℕ) : Option (List ℕ) :=
  if 0 ≤ i ∧ i < (BUFFER_SIZE : ℤ) ∧ i < (buffer.length : ℤ) then some (buffer.set i.toNat c)
  else none

/-- The body of `for (int i = 0; i < n_bytes; ++i)` on the byte `c = chunk[i]`. -/
def step (p : Params) (s : LineState) (c : ℕ) : Option (LineState × List Event) :=
  if c = NEWLINE then
    (writeBuf s.buffer s.buffer_index 0).map fun buf =>
      (⟨buf, 0⟩,
        [Event.record (buf.take s.buffer_index.toNat),
         Event.stdout (processRecord p buf),
         Event.csvWrite (processRecord p buf),
         Event.csvFlush])
  else if s.buffer_index < (BUFFER_SIZE : ℤ) - 1 then
    (writeBuf s.buffer s.buffer_index c).map fun buf => (⟨buf, s.buffer_index + 1⟩, [])
  else
    some (⟨s.buffer, 0⟩, [Event.overflow])

/-- The `for` loop over the bytes of one chunk. -/
def feed (p : Params) : LineState → List ℕ → Option (LineState × List Event)
  | s, [] => some (s, [])
  | s, c :: cs =>
      (step p s c).bind fun r1 =>
        (feed p r1.1 cs).map fun r2 => (r2.1, r1.2 ++ r2.2)

/-- The `for` loop run on one chunk after the other. -/
def feedChunks (p : Params) : LineState → List (List ℕ) → Option (LineState × List Event)
  | s, [] => some (s, [])
  | s, ch :: rest =>
      (feed p s ch).bind fun r1 =>
        (feedChunks p r1.1 rest).map fun r2 => (r2.1, r1.2 ++ r2.2)

/-! ## One iteration of `while (1)` -/

/-- What a read call can meet: a failure, or the bytes the device has ready (possibly none),
of which it delivers at most `CHUNK_SIZE`. -/
inductive ReadOutcome
  | error
  | bytes (data : List ℕ)

/-- Where control is after one iteration of `while (1)`: at the read again, or at the code
after the loop. -/
inductive Control
  | reading
  | shutdown
  deriving DecidableEq

/-- The `ssize_t n_bytes` that `read` returns: -1 on failure, else the number of bytes. -/
def unixNBytes : ReadOutcome → ℤ
  | ReadOutcome.error => -1
  | ReadOutcome.bytes d => ((min d.length CHUNK_SIZE : ℕ) : ℤ)

/-- The `DWORD n_bytes` that `ReadFile` stores: the number of bytes read, which `ReadFile`
sets to zero before doing any work, so it is 0 on failure. -/
def winNBytes : ReadOutcome → ℕ
  | ReadOutcome.error => 0
  | ReadOutcome.bytes d => min d.length CHUNK_SIZE

/-- The content of `chunk[0 .. n)` after the read. -/
def chunkData : ReadOutcome → ℕ → List ℕ
  | ReadOutcome.error, _ => []
  | ReadOutcome.bytes d, n => d.take n

/-- One iteration of `while (1)` in the UNIX variant. -/
def unixIteration (p : Params) (s : LineState) (r : ReadOutcome) :
    Option (Control × LineState × List Event) :=
  let n_bytes : ℤ := unixNBytes r
  if n_bytes > 0 then
    (feed p s (chunkData r n_bytes.toNat)).map fun res =>
      (Control.reading, res.1, res.2 ++ [Event.sleep])
  else if n_bytes < 0 then
    some (Control.reading, s, [Event.readError])        -- perror(...); continue;
  else
    some (Control.reading, s, [Event.sleep])

/-- One iteration of `while (1)` in the Windows variant. -/
def winIteration (p : Params) (s : LineState) (r : ReadOutcome) :
    Option (Control × LineState × List Event) :=
  let n_bytes : ℕ := winNBytes r
  if n_bytes > 0 then
    (feed p s (chunkData r n_bytes)).map fun res =>
      (Control.reading, res.1, res.2 ++ [Event.sleep])
  else if n_bytes < 0 then
    some (Control.shutdown, s, [Event.readError])       -- printf(...); break;
  else
    some (Control.reading, s, [Event.sleep])

/-! ## Notions of the specification -/

/-- The texts of the records in a trace, in order. -/
def recordsOf (evs : List Event) : List (List ℕ) :=
  evs.filterMap fun e => match e with
    | Event.record t => some t
    | _ => none

/-- The values written to the CSV file in a trace, in order. -/
def csvValues (evs : List Event) : List (Option ℚ) :=
  evs.filterMap fun e => match e with
    | Event.csvWrite v => some v
    | _ => none

/-- The lines written to the CSV file in a trace, in order. -/
def csvLines (evs : List Event) : List (Option String) :=
  (csvValues evs).map fun v => v.map fun q => fmt_f q ++ "\n"

/-- A state of the loop: the array has its size and the index is inside it. -/
def wellFormed (s : LineState) : Prop :=
  s.buffer.length = BUFFER_SIZE ∧ 0 ≤ s.buffer_index ∧ s.buffer_index ≤ (BUFFER_SIZE : ℤ) - 1

/-- Every write to the CSV file in a trace is immediately followed by the flush. -/
def flushedWrites (evs : List Event) : Prop :=
  ∀ i v, evs[i]? = some (Event.csvWrite v) → evs[i + 1]? = some Event.csvFlush

/-- Number of overflow reports in a trace. -/
def overflowCount (evs : List Event) : ℕ := evs.count Event.overflow

/-- Whether a text starts, after white space and an optional sign, with decimal digits: a
digit, or a point followed by a digit. -/
def digitStart (text : List ℕ) : Bool :=
  match (parseSign (text.dropWhile isspace)).2 with
  | c :: rest => isdigit c || (c == 46 && match rest with
      | d :: _ => isdigit d
      | [] => false)
  | [] => false

/-- Whether a text starts, after white space and an optional sign, with something `strtod`
converts: a digit, a point followed by a digit, `inf` or `nan`. -/
def numericStart (text : List ℕ) : Bool :=
  let t := (parseSign (text.dropWhile isspace)).2
  startsWithCI [105, 110, 102] t || startsWithCI [110, 97, 110] t ||
  match t with
  | c :: rest => isdigit c || (c == 46 && match rest with
      | d :: _ => isdigit d
      | [] => false)
  | [] => false

/-! ## Lemmas on the byte loop -/

theorem feed_nil (p : Params) (s : LineState) : feed p s [] = some (s, []) := rfl

theorem feed_cons (p : Params) (s : LineState) (c : ℕ) (cs : List ℕ) :
    feed p s (c :: cs) =
      (step p s c).bind fun r1 => (feed p r1.1 cs).map fun r2 => (r2.1, r1.2 ++ r2.2) := rfl

theorem feed_append (p : Params) (a b : List ℕ) (s : LineState) :
    feed p s (a ++ b) =
      (feed p s a).bind fun r1 => (feed p r1.1 b).map fun r2 => (r2.1, r1.2 ++ r2.2) := by
  induction a generalizing s with
  | nil =>
    simp only [List.nil_append, feed_nil, Option.some_bind, List.nil_append]
    cases feed p s b <;> simp
  | cons c cs ih =>
    simp only [List.cons_append, feed_cons]
    cases h1 : step p s c with
    | none => simp
    | some r1 =>
      simp only [Option.some_bind, ih]
      cases h2 : feed p r1.1 cs with
      | none => simp
      | some r2 =>
        simp only [Option.some_bind, Option.map_some']
        cases h3 : feed p r2.1 b with
        | none => simp
        | some r3 => simp [List.append_assoc]

theorem feedChunks_eq_feed_flatten (p : Params) (chunks : List (List ℕ)) (s : LineState) :
    feedChunks p s chunks = feed p s chunks.flatten := by
  induction chunks generalizing s with
  | nil => rfl
  | cons ch rest ih =>
    simp only [feedChunks, List.flatten_cons, feed_append]
    cases h1 : feed p s ch with
    | none => simp
    | some r1 => simp only [Option.some_bind, ih]

theorem feed_singleton (p : Params) (s : LineState) (c : ℕ) : feed p s [c] = step p s c := by
  simp only [feed_cons, feed_nil]
  cases step p s c <;> simp

theorem take_set_self (l : List ℕ) (i a : ℕ) : (l.set i a).take i = l.take i := by
  rw [List.set_eq_take_append_cons_drop]
  split
  · exact List.take_left' (List.length_take_of_le (by omega))
  · rfl

theorem take_succ_set (l : List ℕ) (i a : ℕ) (h : i < l.length) :
    (l.set i a).take (i + 1) = l.take i ++ [a] := by
  rw [List.set_eq_take_append_cons_drop, if_pos h]
  have h1 : (List.take i l).length = i := List.length_take_of_le (by omega)
  rw [List.take_append_eq_append_take, h1, List.take_of_length_le (by omega)]
  simp

theorem writeBuf_ok (buf : List ℕ) (i c : ℕ) (hlen : buf.length = BUFFER_SIZE)
    (hi : i < BUFFER_SIZE) : writeBuf buf (i : ℤ) c = some (buf.set i c) := by
  unfold writeBuf
  rw [if_pos]
  · simp
  · refine ⟨by omega, by exact_mod_cast hi, ?_⟩
    rw [hlen]; exact_mod_cast hi

theorem step_newline (p : Params) (buf : List ℕ) (i : ℕ) (hlen : buf.length = BUFFER_SIZE)
    (hi : i < BUFFER_SIZE) :
    step p ⟨buf, (i : ℤ)⟩ NEWLINE = some (⟨buf.set i 0, 0⟩,
      [Event.record (buf.take i), Event.stdout (processRecord p (buf.set i 0)),
       Event.csvWrite (processRecord p (buf.set i 0)), Event.csvFlush]) := by
  simp [step, writeBuf_ok buf i 0 hlen hi, take_set_self]

theorem step_store (p : Params) (buf : List ℕ) (i c : ℕ) (hlen : buf.length = BUFFER_SIZE)
    (hc : c ≠ NEWLINE) (hi : i + 1 < BUFFER_SIZE) :
    step p ⟨buf, (i : ℤ)⟩ c = some (⟨buf.set i c, ((i + 1 : ℕ) : ℤ)⟩, []) := by
  have h1 : (i : ℤ) < (BUFFER_SIZE : ℤ) - 1 := by
    have : ((i + 1 : ℕ) : ℤ) < (BUFFER_SIZE : ℤ) := by exact_mod_cast hi
    push_cast at this; omega
  simp [step, hc, h1, writeBuf_ok buf i c hlen (by omega)]

theorem step_overflow (p : Params) (buf : List ℕ) (i c : ℕ) (hc : c ≠ NEWLINE)
    (hi : i + 1 = BUFFER_SIZE) :
    step p ⟨buf, (i : ℤ)⟩ c = some (⟨buf, 0⟩, [Event.overflow]) := by
  have h1 : ¬ (i : ℤ) < (BUFFER_SIZE : ℤ) - 1 := by
    have : ((i + 1 : ℕ) : ℤ) = (BUFFER_SIZE : ℤ) := by exact_mod_cast hi
    push_cast at this; omega
  simp [step, hc, h1]

/-- A run of bytes without `'\n'` that fits in the buffer is stored, with no event. -/
theorem feed_run_fits (p : Params) (r : List ℕ) :
    ∀ (buf : List ℕ) (i : ℕ), (∀ c ∈ r, c ≠ NEWLINE) → buf.length = BUFFER_SIZE →
      i + r.length < BUFFER_SIZE →
      ∃ b, feed p ⟨buf, (i : ℤ)⟩ r = some (⟨b, ((i + r.length : ℕ) : ℤ)⟩, []) ∧
        b.length = BUFFER_SIZE ∧ b.take (i + r.length) = buf.take i ++ r := by
  induction r with
  | nil =>
    intro buf i _ hlen _
    exact ⟨buf, by simp [feed_nil], hlen, by simp⟩
  | cons c cs ih =>
    intro buf i hnl hlen hfit
    have hc : c ≠ NEWLINE := hnl c (List.mem_cons_self _ _)
    have hcs : ∀ x ∈ cs, x ≠ NEWLINE := fun x hx => hnl x (List.mem_cons_of_mem _ hx)
    simp only [List.length_cons] at hfit
    obtain ⟨b, hb, hblen, hbtake⟩ :=
      ih (buf.set i c) (i + 1) hcs (by simpa using hlen) (by omega)
    refine ⟨b, ?_, hblen, ?_⟩
    · rw [feed_cons, step_store p buf i c hlen hc (by omega)]
      simp only [Option.some_bind, hb, Option.map_some', List.nil_append, List.length_cons]
      have : i + 1 + cs.length = i + (cs.length + 1) := by omega
      rw [this]
    · have : i + (c :: cs).length = i + 1 + cs.length := by simp only [List.length_cons]; omega
      rw [this, hbtake, take_succ_set buf i c (by omega)]
      simp

/-- A run of bytes without `'\n'` fed into an empty buffer: one overflow for every
`BUFFER_SIZE` bytes, and the buffer ends with the bytes after the last overflow. -/
theorem feed_run (p : Params) :
    ∀ (n : ℕ) (r buf : List ℕ), r.length = n → (∀ c ∈ r, c ≠ NEWLINE) →
      buf.length = BUFFER_SIZE →
      ∃ b, feed p ⟨buf, 0⟩ r = some (⟨b, ((r.length % BUFFER_SIZE : ℕ) : ℤ)⟩,
          List.replicate (r.length / BUFFER_SIZE) Event.overflow) ∧
        b.length = BUFFER_SIZE ∧
        b.take (r.length % BUFFER_SIZE) = r.drop (r.length - r.length % BUFFER_SIZE) := by
  intro n
  induction n using Nat.strong_induction_on with
  | _ n ih =>
    intro r buf hn hnl hlen
    have hB : BUFFER_SIZE = 1024 := rfl
    by_cases hsmall : r.length < BUFFER_SIZE
    · obtain ⟨b, hb, hblen, hbtake⟩ := feed_run_fits p r buf 0 hnl hlen (by omega)
      refine ⟨b, ?_, hblen, ?_⟩
      · rw [Nat.mod_eq_of_lt hsmall, Nat.div_eq_of_lt hsmall]
        simpa using hb
      · rw [Nat.mod_eq_of_lt hsmall]
        simpa using hbtake
    · have hsplit : r = r.take 1023 ++ r.drop 1023 := (List.take_append_drop _ _).symm
      have hl1 : (r.take 1023).length = 1023 := List.length_take_of_le (by omega)
      cases hd : r.drop 1023 with
      | nil =>
        have : (r.drop 1023).length = 0 := by rw [hd]; rfl
        rw [List.length_drop] at this
        omega
      | cons c r2 =>
        rw [hd] at hsplit
        have hl2 : r2.length + 1024 = r.length := by
          have : (r.drop 1023).length = r2.length + 1 := by rw [hd]; rfl
          rw [List.length_drop] at this
          omega
        have hnl1 : ∀ x ∈ r.take 1023, x ≠ NEWLINE := fun x hx => hnl x (List.mem_of_mem_take hx)
        have hc : c ≠ NEWLINE := hnl c (by rw [hsplit]; simp)
        have hnl2 : ∀ x ∈ r2, x ≠ NEWLINE := fun x hx => hnl x (by rw [hsplit]; simp [hx])
        obtain ⟨b1, hb1, hb1len, -⟩ :=
          feed_run_fits p (r.take 1023) buf 0 hnl1 hlen (by omega)
        obtain ⟨b, hb, hblen, hbtake⟩ := ih r2.length (by omega) r2 b1 rfl hnl2 hb1len
        have hmod : r.length % BUFFER_SIZE = r2.length % BUFFER_SIZE := by
          rw [← hl2, hB]; omega
        have hdiv : r.length / BUFFER_SIZE = r2.length / BUFFER_SIZE + 1 := by
          rw [← hl2, hB]; omega
        refine ⟨b, ?_, hblen, ?_⟩
        · have hfeed : feed p ⟨buf, 0⟩ (r.take 1023 ++ c :: r2) =
              some (⟨b, ((r2.length % BUFFER_SIZE : ℕ) : ℤ)⟩,
                Event.overflow :: List.replicate (r2.length / BUFFER_SIZE) Event.overflow) := by
            rw [feed_append]
            have hb1z : feed p ⟨buf, 0⟩ (r.take 1023) = some (⟨b1, ((1023 : ℕ) : ℤ)⟩, []) := by
              simpa [hl1] using hb1
            rw [hb1z]
            simp only [Option.some_bind, feed_cons]
            rw [step_overflow p b1 1023 c hc (by rw [hB])]
            simp only [Option.some_bind, hb, Option.map_some', List.nil_append,
              List.singleton_append]
          rw [hmod, hdiv, List.replicate_succ, ← hfeed, ← hsplit]
        · rw [hmod, hbtake]
          have hk : r.length - r2.length % BUFFER_SIZE =
              1023 + ((r2.length - r2.length % BUFFER_SIZE) + 1) := by
            have := Nat.mod_le r2.length BUFFER_SIZE
            omega
          rw [hk, ← List.drop_drop, hd, List.drop_succ_cons]

theorem cstring_append_zero (a b : List ℕ) : cstring (a ++ 0 :: b) = cstring (a ++ [0]) := by
  induction a with
  | nil => simp [cstring]
  | cons x xs ih =>
    unfold cstring at ih ⊢
    by_cases hx : x = 0
    · simp [hx]
    · simp [List.takeWhile_cons, hx, ih]

theorem processRecord_set (p : Params) (b : List ℕ) (i : ℕ) (h : i < b.length) :
    processRecord p (b.set i 0) = processText p (b.take i) := by
  unfold processText processRecord atof
  rw [List.set_eq_take_append_cons_drop, if_pos h, cstring_append_zero]

/-- A run of bytes without `'\n'`, then `'\n'`, fed into an empty buffer. -/
theorem feed_run_newline (p : Params) (r buf : List ℕ) (hnl : ∀ c ∈ r, c ≠ NEWLINE)
    (hlen : buf.length = BUFFER_SIZE) :
    ∃ b, feed p ⟨buf, 0⟩ (r ++ [NEWLINE]) = some (⟨b, 0⟩,
        List.replicate (r.length / BUFFER_SIZE) Event.overflow ++
          [Event.record (r.drop (r.length - r.length % BUFFER_SIZE)),
           Event.stdout (processText p (r.drop (r.length - r.length % BUFFER_SIZE))),
           Event.csvWrite (processText p (r.drop (r.length - r.length % BUFFER_SIZE))),
           Event.csvFlush]) ∧
      b.length = BUFFER_SIZE := by
  obtain ⟨b1, hb1, hb1len, hb1take⟩ := feed_run p r.length r buf rfl hnl hlen
  have hlt : r.length % BUFFER_SIZE < BUFFER_SIZE := Nat.mod_lt _ (by decide)
  refine ⟨b1.set (r.length % BUFFER_SIZE) 0, ?_, by simpa using hb1len⟩
  rw [feed_append, hb1]
  simp only [Option.some_bind, feed_singleton]
  rw [step_newline p b1 _ hb1len hlt, processRecord_set p b1 _ (by omega), hb1take]
  simp

theorem step_wellFormed (p : Params) (s : LineState) (c : ℕ) (hs : wellFormed s) :
    ∃ r, step p s c = some r ∧ wellFormed r.1 := by
  obtain ⟨buf, idx⟩ := s
  obtain ⟨hlen, h0, h1⟩ := hs
  simp only at hlen h0 h1
  obtain ⟨i, rfl⟩ := Int.eq_ofNat_of_zero_le h0
  have hB : BUFFER_SIZE = 1024 := rfl
  have hi : i < BUFFER_SIZE := by
    have : (i : ℤ) ≤ ((1024 : ℕ) : ℤ) - 1 := by rw [← hB]; exact h1
    omega
  by_cases hc : c = NEWLINE
  · subst hc
    refine ⟨_, step_newline p buf i hlen hi, ?_⟩
    refine ⟨by simpa using hlen, le_refl _, ?_⟩
    simp [hB]
  · by_cases hfull : i + 1 < BUFFER_SIZE
    · refine ⟨_, step_store p buf i c hlen hc hfull, ?_⟩
      refine ⟨by simpa using hlen, by positivity, ?_⟩
      simp only [hB] at hfull ⊢
      push_cast
      omega
    · refine ⟨_, step_overflow p buf i c hc (by omega), ?_⟩
      exact ⟨hlen, le_refl _, by simp [hB]⟩

theorem feed_wellFormed (p : Params) (bytes : List ℕ) :
    ∀ s, wellFormed s → ∃ r, feed p s bytes = some r ∧ wellFormed r.1 := by
  induction bytes with
  | nil => intro s hs; exact ⟨(s, []), rfl, hs⟩
  | cons c cs ih =>
    intro s hs
    obtain ⟨r1, h1, hw1⟩ := step_wellFormed p s c hs
    obtain ⟨r2, h2, hw2⟩ := ih r1.1 hw1
    exact ⟨(r2.1, r1.2 ++ r2.2), by simp [feed_cons, h1, h2], hw2⟩

theorem wellFormed_init (buf : List ℕ) (hlen : buf.length = BUFFER_SIZE) :
    wellFormed ⟨buf, 0⟩ := ⟨hlen, le_refl _, by simp [BUFFER_SIZE]⟩

/-! ## Lemmas on the floating-point model -/

theorem log2Fuel_le : ∀ (fuel n : ℕ), n ≠ 0 → n ≤ fuel → 2 ^ log2Fuel fuel n ≤ n := by
  intro fuel
  induction fuel with
  | zero => intro n h0 h; omega
  | succ f ih =>
    intro n h0 h
    unfold log2Fuel
    split
    · simp; omega
    · have := ih (n / 2) (by omega) (by omega)
      rw [pow_succ]
      omega

theorem lt_log2Fuel : ∀ (fuel n : ℕ), n ≤ fuel → n < 2 ^ (log2Fuel fuel n + 1) := by
  intro fuel
  induction fuel with
  | zero => intro n h; simp [log2Fuel]; omega
  | succ f ih =>
    intro n h
    unfold log2Fuel
    split
    · simp; omega
    · have := ih (n / 2) (by omega)
      rw [pow_succ]
      omega

theorem ilog2_le (q : ℚ) (hq : q ≠ 0) : (2 : ℚ) ^ ilog2 q ≤ |q| := by
  simp only [ilog2]
  split
  · assumption
  · have hn : q.num.natAbs ≠ 0 := by simpa using hq
    have h1 := log2Fuel_le q.num.natAbs q.num.natAbs hn le_rfl
    have h2 := lt_log2Fuel q.den q.den le_rfl
    have habs : |q| = (q.num.natAbs : ℚ) / (q.den : ℚ) := by
      rw [Rat.abs_def, Rat.divInt_eq_div]
      simp [Nat.cast_natAbs, Int.cast_abs]
    rw [habs]
    have e : ((log2Fuel q.num.natAbs q.num.natAbs : ℤ) - (log2Fuel q.den q.den : ℤ) - 1) =
        (log2Fuel q.num.natAbs q.num.natAbs : ℤ) - ((log2Fuel q.den q.den + 1 : ℕ) : ℤ) := by
      push_cast; ring
    rw [e, zpow_sub₀ (by norm_num), zpow_natCast, zpow_natCast]
    have h1q : (2 : ℚ) ^ log2Fuel q.num.natAbs q.num.natAbs ≤ (q.num.natAbs : ℚ) := by
      exact_mod_cast h1
    have h2q : (q.den : ℚ) ≤ (2 : ℚ) ^ (log2Fuel q.den q.den + 1) := by
      exact_mod_cast h2.le
    have hd : (0 : ℚ) < q.den := by exact_mod_cast q.den_pos
    exact div_le_div₀ (by positivity) h1q hd h2q

/-- With `ilog2_le`: `ilog2 q` is the floor of the base-2 logarithm of `|q|`. -/
theorem lt_ilog2 (q : ℚ) : |q| < (2 : ℚ) ^ (ilog2 q + 1) := by
  simp only [ilog2]
  split
  · have h1 := lt_log2Fuel q.num.natAbs q.num.natAbs le_rfl
    have hd0 : q.den ≠ 0 := q.den_nz
    have h2 := log2Fuel_le q.den q.den hd0 le_rfl
    have habs : |q| = (q.num.natAbs : ℚ) / (q.den : ℚ) := by
      rw [Rat.abs_def, Rat.divInt_eq_div]
      simp [Nat.cast_natAbs, Int.cast_abs]
    rw [habs]
    have e : ((log2Fuel q.num.natAbs q.num.natAbs : ℤ) - (log2Fuel q.den q.den : ℤ) + 1) =
        ((log2Fuel q.num.natAbs q.num.natAbs + 1 : ℕ) : ℤ) - (log2Fuel q.den q.den : ℤ) := by
      push_cast; ring
    rw [e, zpow_sub₀ (by norm_num), zpow_natCast, zpow_natCast]
    have h1q : (q.num.natAbs : ℚ) < (2 : ℚ) ^ (log2Fuel q.num.natAbs q.num.natAbs + 1) := by
      exact_mod_cast h1
    have h2q : (2 : ℚ) ^ log2Fuel q.den q.den ≤ (q.den : ℚ) := by
      exact_mod_cast h2
    have hd : (0 : ℚ) < q.den := by exact_mod_cast q.den_pos
    rw [div_lt_div_iff₀ hd (by positivity)]
    calc (q.num.natAbs : ℚ) * 2 ^ log2Fuel q.den q.den
        ≤ (q.num.natAbs : ℚ) * q.den := by gcongr
      _ < 2 ^ (log2Fuel q.num.natAbs q.num.natAbs + 1) * q.den := by gcongr
  · rename_i h
    simpa using h


theorem roundNearestEven_intCast (k : ℤ) : roundNearestEven (k : ℚ) = k := by
  simp [roundNearestEven]

theorem roundFloat_exact (prec : ℕ) (emin emax : ℤ) (q : ℚ) (k : ℤ) (j : ℕ)
    (hq : q = (k : ℚ) / 2 ^ j) (hk : |k| < 2 ^ prec) (hj : (j : ℤ) ≤ (prec : ℤ) - 1 - emin)
    (hp : (prec : ℤ) ≤ emax + 1) : roundFloat prec emin emax q = some q := by
  unfold roundFloat
  by_cases h0 : q = 0
  · simp [h0]
  rw [if_neg h0]
  have h2 : (2 : ℚ) ≠ 0 := by norm_num
  have hkq : |(k : ℚ)| < (2 : ℚ) ^ prec := by exact_mod_cast hk
  have habs : |q| = |(k : ℚ)| / 2 ^ j := by
    rw [hq, abs_div, abs_of_pos (by positivity : (0 : ℚ) < 2 ^ j)]
  have hlt : |q| < (2 : ℚ) ^ ((prec : ℤ) - (j : ℤ)) := by
    rw [habs, zpow_sub₀ h2, zpow_natCast, zpow_natCast]
    exact div_lt_div_of_pos_right hkq (by positivity)
  have hL : ilog2 q < (prec : ℤ) - (j : ℤ) :=
    (zpow_lt_zpow_iff_right₀ (by norm_num : (1 : ℚ) < 2)).1 (lt_of_le_of_lt (ilog2_le q h0) hlt)
  have he : max (ilog2 q - ((prec : ℤ) - 1)) (emin - ((prec : ℤ) - 1)) ≤ -(j : ℤ) :=
    max_le (by omega) (by omega)
  obtain ⟨t, ht⟩ := Int.eq_ofNat_of_zero_le (sub_nonneg.2 he)
  generalize max (ilog2 q - ((prec : ℤ) - 1)) (emin - ((prec : ℤ) - 1)) = e at he ht
  have hdiv : q / 2 ^ e = ((k * 2 ^ t : ℤ) : ℚ) := by
    have : e = -(j : ℤ) - (t : ℤ) := by omega
    rw [hq, this, zpow_sub₀ h2, zpow_neg, zpow_natCast, zpow_natCast]
    push_cast
    field_simp
    ring
  have hr : ((roundNearestEven (q / 2 ^ e) : ℤ) : ℚ) * 2 ^ e = q := by
    rw [hdiv, roundNearestEven_intCast, ← hdiv]
    field_simp
  simp only [hr]
  rw [if_pos]
  calc |q| ≤ |(k : ℚ)| := by
        rw [habs]; exact div_le_self (abs_nonneg _) (one_le_pow₀ (by norm_num))
    _ < (2 : ℚ) ^ prec := hkq
    _ = (2 : ℚ) ^ (prec : ℤ) := (zpow_natCast _ _).symm
    _ ≤ (2 : ℚ) ^ (emax + 1) := zpow_le_zpow_right₀ (by norm_num) hp

theorem roundSingle_exact (q : ℚ) (k : ℤ) (j : ℕ) (hq : q = (k : ℚ) / 2 ^ j)
    (hk : |k| < 2 ^ 24) (hj : j ≤ 149) : roundSingle q = some q :=
  roundFloat_exact 24 (-126) 127 q k j hq hk (by push_cast; omega) (by norm_num)

theorem intToFloat_exact (n : ℤ) (h : |n| < 2 ^ 24) : intToFloat n = some (n : ℚ) :=
  roundSingle_exact (n : ℚ) n 0 (by simp) h (by norm_num)

theorem fsub_exact (a b : ℤ) (h : |a - b| < 2 ^ 24) :
    fsub (a : ℚ) (b : ℚ) = some ((a : ℚ) - (b : ℚ)) :=
  roundSingle_exact _ (a - b) 0 (by push_cast; simp) h (by norm_num)

theorem fmul_half_exact (n k : ℤ) (h : |n * k| < 2 ^ 24) :
    fmul (n : ℚ) ((k : ℚ) / 2) = some ((n : ℚ) * ((k : ℚ) / 2)) :=
  roundSingle_exact _ (n * k) 1 (by push_cast; ring) h (by norm_num)

theorem truncQ_intCast (n : ℤ) : truncQ (n : ℚ) = n := by
  unfold truncQ
  split <;> simp

theorem abs_truncQ_le (q : ℚ) : |((truncQ q : ℤ) : ℚ)| ≤ |q| := by
  unfold truncQ
  split
  · rename_i h
    rw [abs_of_nonneg h, abs_of_nonneg (by exact_mod_cast Int.floor_nonneg.2 h)]
    exact Int.floor_le q
  · rename_i h
    have hq : q < 0 := not_le.1 h
    have hc : ((⌈q⌉ : ℤ) : ℚ) ≤ 0 := by
      exact_mod_cast Int.ceil_le.2 (by simpa using hq.le)
    rw [abs_of_neg hq, abs_of_nonpos hc]
    exact neg_le_neg (Int.le_ceil q)

theorem abs_truncQ_le_int (q : ℚ) (B : ℤ) (h : |q| ≤ (B : ℚ)) : |truncQ q| ≤ B := by
  have := le_trans (abs_truncQ_le q) h
  exact_mod_cast this

theorem toInt_eq (q : ℚ) (h : |q| ≤ 2147483647) : toInt q = some (truncQ q) := by
  have hb := abs_truncQ_le_int q 2147483647 (by exact_mod_cast h)
  have := abs_le.1 hb
  unfold toInt
  simp only [INT_MIN, INT_MAX]
  rw [if_pos ⟨by omega, by omega⟩]

/-- The processing of a record whose parsed value `v` is small, for an offset of 2024 and a
scale that is a small multiple `k / 2` of one half: every conversion is exact. -/
theorem processRecord_small (p : Params) (k : ℤ) (hk : |k| ≤ 5)
    (hs : p.scaling_factor = (k : ℚ) / 2) (ho : p.offset = 2024) (buffer : List ℕ) (v : ℚ)
    (hv : atof buffer = some v) (hsmall : |v| ≤ 2 ^ 21) :
    processRecord p buffer =
      some ((truncQ (((truncQ (((truncQ v : ℤ) : ℚ) - p.offset) : ℤ) : ℚ) * p.scaling_factor) : ℤ) : ℚ) := by
  have hv2 : |v| ≤ ((2097152 : ℤ) : ℚ) := by norm_num at hsmall ⊢; exact hsmall
  have hn := abs_le.1 (abs_truncQ_le_int v 2097152 hv2)
  have hk2 := abs_le.1 hk
  have e2024 : (2024 : ℚ) = ((2024 : ℤ) : ℚ) := by norm_num
  unfold processRecord
  rw [hv, ho, hs]
  simp only [Option.some_bind]
  rw [toInt_eq v (le_trans hv2 (by norm_num))]
  simp only [Option.some_bind]
  generalize truncQ v = n at hn ⊢
  rw [intToFloat_exact n (abs_lt.2 ⟨by omega, by omega⟩)]
  simp only [Option.some_bind]
  rw [e2024, fsub_exact n 2024 (abs_lt.2 ⟨by omega, by omega⟩)]
  simp only [Option.some_bind]
  have em : (n : ℚ) - ((2024 : ℤ) : ℚ) = ((n - 2024 : ℤ) : ℚ) := by push_cast; rfl
  rw [em, toInt_eq _ (by
    rw [← Int.cast_abs]
    have : |n - 2024| ≤ 2147483647 := abs_le.2 ⟨by omega, by omega⟩
    exact_mod_cast this)]
  simp only [Option.some_bind, truncQ_intCast]
  generalize hm : n - 2024 = m at *
  have hmb : -2099176 ≤ m ∧ m ≤ 2095128 := by omega
  rw [intToFloat_exact m (abs_lt.2 ⟨by omega, by omega⟩)]
  simp only [Option.some_bind]
  have hmk : |m * k| ≤ 10495880 := by
    rw [abs_mul]
    have h1 : |m| ≤ 2099176 := abs_le.2 ⟨by omega, by omega⟩
    calc |m| * |k| ≤ 2099176 * 5 := mul_le_mul h1 hk (abs_nonneg _) (by norm_num)
      _ = 10495880 := by norm_num
  rw [fmul_half_exact m k (lt_of_le_of_lt hmk (by norm_num))]
  simp only [Option.some_bind]
  have hprod : |(m : ℚ) * ((k : ℚ) / 2)| ≤ ((10495880 : ℤ) : ℚ) := by
    have h1 : |((m * k : ℤ) : ℚ)| ≤ ((10495880 : ℤ) : ℚ) := by
      rw [← Int.cast_abs]; exact_mod_cast hmk
    have h2 : (m : ℚ) * ((k : ℚ) / 2) = ((m * k : ℤ) : ℚ) / 2 := by push_cast; ring
    rw [h2, abs_div, abs_of_pos (by norm_num : (0 : ℚ) < 2)]
    exact le_trans (div_le_self (abs_nonneg _) (by norm_num)) h1
  rw [toInt_eq _ (le_trans hprod (by norm_num))]
  simp only [Option.some_bind]
  have hfin := abs_le.1 (abs_truncQ_le_int _ 10495880 hprod)
  rw [intToFloat_exact _ (abs_lt.2 ⟨by omega, by omega⟩)]

/-! ## Lemmas on the model of `atof` -/

theorem cstring_nil : cstring [] = [] := rfl

theorem cstring_cons_zero (x : List ℕ) : cstring (0 :: x) = [] := by simp [cstring]

theorem cstring_cons_ne (c : ℕ) (x : List ℕ) (h : c ≠ 0) : cstring (c :: x) = c :: cstring x := by
  simp [cstring, List.takeWhile_cons, h]

theorem cstring_append_nul (a : List ℕ) : cstring (a ++ [0]) = cstring a := by
  induction a with
  | nil => simp [cstring]
  | cons x xs ih =>
    by_cases hx : x = 0
    · subst hx; simp [cstring_cons_zero]
    · rw [List.cons_append, cstring_cons_ne _ _ hx, cstring_cons_ne _ _ hx, ih]

theorem cstring_dropWhile_isspace (x : List ℕ) :
    (cstring x).dropWhile isspace = cstring (x.dropWhile isspace) := by
  induction x with
  | nil => rfl
  | cons c cs ih =>
    by_cases hc : c = 0
    · subst hc
      have : isspace 0 = false := by decide
      simp [cstring_cons_zero, List.dropWhile_cons, this]
    · rw [cstring_cons_ne _ _ hc]
      by_cases hs : isspace c = true
      · simp [List.dropWhile_cons, hs, ih]
      · simp [List.dropWhile_cons, hs, cstring_cons_ne _ _ hc]

theorem parseSign_cstring (x : List ℕ) : (parseSign (cstring x)).2 = cstring (parseSign x).2 := by
  cases x with
  | nil => rfl
  | cons c cs =>
    by_cases hc : c = 0
    · subst hc; simp [cstring_cons_zero, parseSign]
    · rw [cstring_cons_ne _ _ hc]
      by_cases h45 : c = 45
      · subst h45; simp [parseSign]
      · by_cases h43 : c = 43
        · subst h43; simp [parseSign]
        · have e1 : ∀ t : List ℕ, parseSign (c :: t) = (false, c :: t) := by
            intro t
            unfold parseSign
            split
            · rename_i heq; simp at heq; omega
            · rename_i heq; simp at heq; omega
            · rfl
          rw [e1, e1, cstring_cons_ne _ _ hc]

theorem startsWithCI_cstring (pat u : List ℕ) (h : startsWithCI pat (cstring u) = true) :
    startsWithCI pat u = true := by
  unfold startsWithCI at h ⊢
  rw [beq_iff_eq] at h ⊢
  have hlen : pat.length ≤ (cstring u).length := by
    have := congrArg List.length h
    simp only [List.length_map, List.length_take] at this
    omega
  obtain ⟨t, ht⟩ : cstring u <+: u := List.takeWhile_prefix _
  rw [← ht, List.take_append_of_le_length hlen]
  exact h

theorem takeWhile_isdigit_cstring (u : List ℕ)
    (h : ∀ c rest, u = c :: rest → isdigit c = false) :
    (cstring u).takeWhile isdigit = [] ∧ (cstring u).dropWhile isdigit = cstring u := by
  cases u with
  | nil => exact ⟨rfl, rfl⟩
  | cons c cs =>
    have hd := h c cs rfl
    by_cases hc : c = 0
    · subst hc; simp [cstring_cons_zero]
    · rw [cstring_cons_ne _ _ hc]
      simp [List.takeWhile_cons, List.dropWhile_cons, hd]

theorem fractionDigits_cstring (u : List ℕ)
    (h : ∀ d rest, u = 46 :: d :: rest → isdigit d = false) :
    fractionDigits (cstring u) = [] := by
  cases u with
  | nil => rfl
  | cons c cs =>
    by_cases hc : c = 0
    · subst hc; simp [cstring_cons_zero, fractionDigits]
    · rw [cstring_cons_ne _ _ hc]
      by_cases h46 : c = 46
      · subst h46
        simp only [fractionDigits]
        exact (takeWhile_isdigit_cstring cs (fun d rest hr => h d rest (by rw [hr]))).1
      · unfold fractionDigits
        split
        · rename_i heq; simp at heq; omega
        · rfl

theorem isSpecialForm_cstring (u : List ℕ)
    (h1 : startsWithCI [105, 110, 102] u = false) (h2 : startsWithCI [110, 97, 110] u = false)
    (h3 : ∀ c rest, u = c :: rest → isdigit c = false) : isSpecialForm (cstring u) = false := by
  have e1 : startsWithCI [105, 110, 102] (cstring u) = false := by
    cases h : startsWithCI [105, 110, 102] (cstring u) with
    | false => rfl
    | true => rw [startsWithCI_cstring _ _ h] at h1; exact absurd h1 (by decide)
  have e2 : startsWithCI [110, 97, 110] (cstring u) = false := by
    cases h : startsWithCI [110, 97, 110] (cstring u) with
    | false => rfl
    | true => rw [startsWithCI_cstring _ _ h] at h2; exact absurd h2 (by decide)
  unfold isSpecialForm
  rw [e1, e2]
  simp only [Bool.false_or]
  split
  · rename_i x hh rest heq
    cases u with
    | nil => simp [cstring] at heq
    | cons c cs =>
      have hd := h3 c cs rfl
      by_cases hc : c = 0
      · subst hc; simp [cstring_cons_zero] at heq
      · rw [cstring_cons_ne _ _ hc] at heq
        simp only [List.cons.injEq] at heq
        rw [heq.1] at hd
        exact absurd hd (by decide)
  · rfl

/-- A text that does not start like a number is converted to 0 ("no conversion"). -/
theorem strtod_cstring_of_not_numericStart (text : List ℕ) (h : numericStart text = false) :
    strtod (cstring text) = some 0 := by
  unfold numericStart at h
  simp only [Bool.or_eq_false_iff] at h
  obtain ⟨⟨h1, h2⟩, h3⟩ := h
  have hd : ∀ c rest, (parseSign (text.dropWhile isspace)).2 = c :: rest → isdigit c = false := by
    intro c rest hu
    rw [hu] at h3
    simp only [Bool.or_eq_false_iff] at h3
    exact h3.1
  have hf : ∀ d rest, (parseSign (text.dropWhile isspace)).2 = 46 :: d :: rest →
      isdigit d = false := by
    intro d rest hu
    rw [hu] at h3
    simp at h3
    exact h3.2
  unfold strtod
  simp only [cstring_dropWhile_isspace, parseSign_cstring]
  rw [isSpecialForm_cstring _ h1 h2 hd]
  have ht := takeWhile_isdigit_cstring _ hd
  rw [ht.1, ht.2, fractionDigits_cstring _ hf]
  simp

/-- A text that `strtod` converts to an infinity or a NaN has no finite value. -/
theorem strtod_of_nonFinite (s : List ℕ) (x : NonFinite) (h : strtodNonFinite s = some x) :
    strtod s = none := by
  have hs : isSpecialForm (parseSign (s.dropWhile isspace)).2 = true := by
    unfold strtodNonFinite at h
    unfold isSpecialForm
    split at h
    · rename_i h1; simp [h1]
    · split at h
      · rename_i h2; simp [h2]
      · exact absurd h (by simp)
  unfold strtod
  simp only [hs, if_true]

theorem atof_append_zero (text stale : List ℕ) :
    atof (text ++ 0 :: stale) = strtod (cstring text) := by
  unfold atof; rw [cstring_append_zero, cstring_append_nul]

/-! ## Lemmas on traces -/

theorem recordsOf_append (a b : List Event) : recordsOf (a ++ b) = recordsOf a ++ recordsOf b := by
  simp [recordsOf, List.filterMap_append]

theorem csvValues_append (a b : List Event) : csvValues (a ++ b) = csvValues a ++ csvValues b := by
  simp [csvValues, List.filterMap_append]

theorem flushedWrites_nil : flushedWrites [] := by
  intro i v h; simp at h

theorem flushedWrites_cons (e : Event) (evs : List Event) (he : ∀ v, e ≠ Event.csvWrite v)
    (h : flushedWrites evs) : flushedWrites (e :: evs) := by
  intro i v hi
  cases i with
  | zero =>
    simp only [List.getElem?_cons_zero, Option.some.injEq] at hi
    exact absurd hi (he v)
  | succ k =>
    simp only [List.getElem?_cons_succ] at hi ⊢
    exact h k v hi

theorem flushedWrites_write (w : Option ℚ) (evs : List Event) (h : flushedWrites evs) :
    flushedWrites (Event.csvWrite w :: Event.csvFlush :: evs) := by
  intro i v hi
  cases i with
  | zero => simp
  | succ k =>
    simp only [List.getElem?_cons_succ] at hi
    rw [List.getElem?_cons_succ]
    exact flushedWrites_cons Event.csvFlush evs (fun v => by simp) h k v hi

/-- What one step does to the trace: a `'\n'` adds the record, its value on the standard
output, its write and its flush; another byte adds nothing or one overflow report. -/
theorem step_trace (p : Params) (s : LineState) (c : ℕ) (hs : wellFormed s) :
    ∃ r, step p s c = some r ∧ wellFormed r.1 ∧
      ((c = NEWLINE ∧ ∃ t, r.2 = [Event.record t, Event.stdout (processText p t),
          Event.csvWrite (processText p t), Event.csvFlush]) ∨
        (c ≠ NEWLINE ∧ (r.2 = [] ∨ r.2 = [Event.overflow]))) := by
  obtain ⟨r, hr, hw⟩ := step_wellFormed p s c hs
  refine ⟨r, hr, hw, ?_⟩
  obtain ⟨buf, idx⟩ := s
  obtain ⟨hlen, h0, h1⟩ := hs
  simp only at hlen h0 h1
  obtain ⟨i, rfl⟩ := Int.eq_ofNat_of_zero_le h0
  have hB : BUFFER_SIZE = 1024 := rfl
  have hi : i < BUFFER_SIZE := by
    have : (i : ℤ) ≤ ((1024 : ℕ) : ℤ) - 1 := by rw [← hB]; exact h1
    omega
  by_cases hc : c = NEWLINE
  · subst hc
    rw [step_newline p buf i hlen hi, processRecord_set p buf i (by omega)] at hr
    left
    refine ⟨rfl, buf.take i, ?_⟩
    rw [← Option.some.inj hr]
  · right
    refine ⟨hc, ?_⟩
    by_cases hfull : i + 1 < BUFFER_SIZE
    · rw [step_store p buf i c hlen hc hfull] at hr
      left; rw [← Option.some.inj hr]
    · rw [step_overflow p buf i c hc (by omega)] at hr
      right; rw [← Option.some.inj hr]

theorem feed_trace (p : Params) (bytes : List ℕ) :
    ∀ s, wellFormed s → ∃ r, feed p s bytes = some r ∧ wellFormed r.1 ∧
      (csvValues r.2).length = bytes.count NEWLINE ∧
      csvValues r.2 = (recordsOf r.2).map (processText p) ∧ flushedWrites r.2 := by
  induction bytes with
  | nil =>
    intro s hs
    exact ⟨(s, []), rfl, hs, rfl, rfl, flushedWrites_nil⟩
  | cons c cs ih =>
    intro s hs
    obtain ⟨r1, h1, hw1, hcase⟩ := step_trace p s c hs
    obtain ⟨r2, h2, hw2, hcount, hvals, hflush⟩ := ih r1.1 hw1
    refine ⟨(r2.1, r1.2 ++ r2.2), by simp [feed_cons, h1, h2], hw2, ?_⟩
    simp only [csvValues_append, recordsOf_append, List.length_append, List.map_append]
    rcases hcase with ⟨hc, t, ht⟩ | ⟨hc, ht | ht⟩
    · subst hc
      rw [ht, List.count_cons_self, ← hcount, ← hvals]
      refine ⟨by simp [csvValues]; omega, by simp [csvValues, recordsOf], ?_⟩
      exact flushedWrites_cons _ _ (fun v => by simp)
        (flushedWrites_cons _ _ (fun v => by simp) (flushedWrites_write _ _ hflush))
    · rw [ht, List.count_cons_of_ne (Ne.symm hc), ← hcount, ← hvals]
      exact ⟨by simp [csvValues], by simp [csvValues, recordsOf], by simpa using hflush⟩
    · rw [ht, List.count_cons_of_ne (Ne.symm hc), ← hcount, ← hvals]
      refine ⟨by simp [csvValues], by simp [csvValues, recordsOf], ?_⟩
      exact flushedWrites_cons _ _ (fun v => by simp) hflush

/-- A record without `'\n'` and shorter than the buffer, then `'\n'`, fed into an empty
buffer: the trace is that record with its value, write and flush. -/
theorem feed_short_record (p : Params) (r buf : List ℕ) (hnl : ∀ c ∈ r, c ≠ NEWLINE)
    (hr : r.length < BUFFER_SIZE) (hlen : buf.length = BUFFER_SIZE) :
    ∃ b, feed p ⟨buf, 0⟩ (r ++ [NEWLINE]) = some (⟨b, 0⟩,
        [Event.record r, Event.stdout (processText p r), Event.csvWrite (processText p r),
         Event.csvFlush]) ∧
      b.length = BUFFER_SIZE := by
  obtain ⟨b, hb, hblen⟩ := feed_run_newline p r buf hnl hlen
  refine ⟨b, ?_, hblen⟩
  rw [hb, Nat.div_eq_of_lt hr, Nat.mod_eq_of_lt hr]
  simp

theorem recordsOf_replicate_overflow (n : ℕ) :
    recordsOf (List.replicate n Event.overflow) = [] := by
  induction n with
  | zero => rfl
  | succ k ih => rw [List.replicate_succ]; simp [recordsOf]

theorem overflowCount_run (n : ℕ) (t : List ℕ) (v : Option ℚ) :
    overflowCount (List.replicate n Event.overflow ++
      [Event.record t, Event.stdout v, Event.csvWrite v, Event.csvFlush]) = n := by
  simp [overflowCount, List.count_append, List.count_cons]

theorem recordsOf_run (n : ℕ) (t : List ℕ) (v : Option ℚ) :
    recordsOf (List.replicate n Event.overflow ++
      [Event.record t, Event.stdout v, Event.csvWrite v, Event.csvFlush]) = [t] := by
  rw [recordsOf_append, recordsOf_replicate_overflow]
  simp [recordsOf]

/-! ## The byte loop: chunks, round trip, bound, overflow -/

/-- C1: chunk-boundary independence.  For every starting Line Buffer state and every list
of chunks (of any sizes, empty ones included), running the byte loop on the chunks one after
another gives the same trace of events (records, overflow reports, writes) and the same final
buffer content and `buffer_index` as running it once on the concatenation of the chunks. -/
theorem chunk_boundary_independence (p : Params) (s : LineState) (chunks : List (List ℕ)) :
    feedChunks p s chunks = feed p s chunks.flatten :=
  feedChunks_eq_feed_flatten p chunks s

/-- C2: record round trip.  A record `r` without `'\n'` and shorter than `BUFFER_SIZE`,
followed by `'\n'` and fed into an empty Line Buffer (`buffer_index = 0`, any stale array
content), produces exactly one Record, equal to `r`, with its value written and flushed, no
overflow report, and leaves `buffer_index = 0`. -/
theorem record_round_trip (p : Params) (r buf : List ℕ) (hnl : ∀ c ∈ r, c ≠ NEWLINE)
    (hr : r.length < BUFFER_SIZE) (hlen : buf.length = BUFFER_SIZE) :
    ∃ b, feed p ⟨buf, 0⟩ (r ++ [NEWLINE]) = some (⟨b, 0⟩,
        [Event.record r, Event.stdout (processText p r), Event.csvWrite (processText p r),
         Event.csvFlush]) ∧
      b.length = BUFFER_SIZE :=
  feed_short_record p r buf hnl hr hlen

theorem record_round_trip_witness :
    ∃ b, feed unixParams ⟨List.replicate 1024 0, 0⟩ ([50, 48, 51, 48] ++ [NEWLINE]) =
        some (⟨b, 0⟩,
          [Event.record [50, 48, 51, 48], Event.stdout (processText unixParams [50, 48, 51, 48]),
           Event.csvWrite (processText unixParams [50, 48, 51, 48]), Event.csvFlush]) ∧
      b.length = BUFFER_SIZE :=
  record_round_trip unixParams [50, 48, 51, 48] (List.replicate 1024 0) (by decide) (by decide)
    (List.length_replicate _ _)

/-- C5: Line Buffer bound.  From `buffer_index = 0`, for every sequence of chunks the loop
runs without a write outside `buffer` (the run is `some`), and afterwards
`0 ≤ buffer_index ≤ BUFFER_SIZE - 1 = 1023` and the array still has `BUFFER_SIZE` bytes. -/
theorem buffer_index_bounded (p : Params) (buf : List ℕ) (chunks : List (List ℕ))
    (hlen : buf.length = BUFFER_SIZE) :
    ∃ s evs, feedChunks p ⟨buf, 0⟩ chunks = some (s, evs) ∧
      0 ≤ s.buffer_index ∧ s.buffer_index ≤ 1023 ∧ s.buffer_index ≤ (BUFFER_SIZE : ℤ) - 1 ∧
      s.buffer.length = BUFFER_SIZE := by
  obtain ⟨r, hr, hw⟩ := feed_wellFormed p chunks.flatten ⟨buf, 0⟩ (wellFormed_init buf hlen)
  refine ⟨r.1, r.2, ?_, hw.2.1, ?_, hw.2.2, hw.1⟩
  · rw [feedChunks_eq_feed_flatten, hr]
  · have := hw.2.2
    simpa [BUFFER_SIZE] using this

theorem buffer_index_bounded_witness :
    ∃ s evs, feedChunks unixParams ⟨List.replicate 1024 0, 0⟩ [[49, 48, 10, 50], [], [48, 10]] =
        some (s, evs) ∧
      0 ≤ s.buffer_index ∧ s.buffer_index ≤ 1023 ∧ s.buffer_index ≤ (BUFFER_SIZE : ℤ) - 1 ∧
      s.buffer.length = BUFFER_SIZE :=
  buffer_index_bounded unixParams (List.replicate 1024 0) [[49, 48, 10, 50], [], [48, 10]]
    (List.length_replicate _ _)

/-- C10: exact overflow behaviour.  For a run `r` of `L` bytes without `'\n'`, followed by
one `'\n'` and fed into an empty Line Buffer: the trace is `L / 1024` overflow reports and
then exactly one Record, which is the last `L % 1024` bytes of `r` (with its write and
flush), and `buffer_index` is 0 afterwards.  Every byte `c` of the run, after the bytes `pre`
before it, is either stored in the buffer at index `|pre| % 1024` with no event, or (when
that index is 1023) is dropped by one overflow reset that reports once. -/
theorem overflow_exact (p : Params) (r buf : List ℕ) (hnl : ∀ c ∈ r, c ≠ NEWLINE)
    (hlen : buf.length = BUFFER_SIZE) :
    (∃ b, feed p ⟨buf, 0⟩ (r ++ [NEWLINE]) = some (⟨b, 0⟩,
        List.replicate (r.length / 1024) Event.overflow ++
          [Event.record (r.drop (r.length - r.length % 1024)),
           Event.stdout (processText p (r.drop (r.length - r.length % 1024))),
           Event.csvWrite (processText p (r.drop (r.length - r.length % 1024))),
           Event.csvFlush])) ∧
    (r.drop (r.length - r.length % 1024)).length = r.length % 1024 ∧
    (∀ pre c post, r = pre ++ c :: post →
      ∃ b1, feed p ⟨buf, 0⟩ pre = some (⟨b1, ((pre.length % 1024 : ℕ) : ℤ)⟩,
          List.replicate (pre.length / 1024) Event.overflow) ∧
        step p ⟨b1, ((pre.length % 1024 : ℕ) : ℤ)⟩ c =
          if pre.length % 1024 < 1023 then
            some (⟨b1.set (pre.length % 1024) c, ((pre.length % 1024 + 1 : ℕ) : ℤ)⟩, [])
          else some (⟨b1, 0⟩, [Event.overflow])) := by
  refine ⟨?_, ?_, ?_⟩
  · obtain ⟨b, hb, -⟩ := feed_run_newline p r buf hnl hlen
    exact ⟨b, hb⟩
  · have := Nat.mod_le r.length 1024
    rw [List.length_drop]; omega
  · intro pre c post hsplit
    have hpre : ∀ x ∈ pre, x ≠ NEWLINE := fun x hx => hnl x (by rw [hsplit]; simp [hx])
    have hc : c ≠ NEWLINE := hnl c (by rw [hsplit]; simp)
    obtain ⟨b1, hb1, hb1len, -⟩ := feed_run p pre.length pre buf rfl hpre hlen
    refine ⟨b1, hb1, ?_⟩
    have hlt : pre.length % 1024 < 1024 := Nat.mod_lt _ (by decide)
    split
    · exact step_store p b1 _ c hb1len hc (by simp only [BUFFER_SIZE]; omega)
    · exact step_overflow p b1 _ c hc (by simp only [BUFFER_SIZE]; omega)

theorem overflow_exact_witness :
    (∃ b, feed unixParams ⟨List.replicate 1024 0, 0⟩ (List.replicate 2050 55 ++ [NEWLINE]) =
      some (⟨b, 0⟩,
        List.replicate ((List.replicate 2050 55).length / 1024) Event.overflow ++
          [Event.record ((List.replicate 2050 55).drop
             ((List.replicate 2050 55).length - (List.replicate 2050 55).length % 1024)),
           Event.stdout (processText unixParams ((List.replicate 2050 55).drop
             ((List.replicate 2050 55).length - (List.replicate 2050 55).length % 1024))),
           Event.csvWrite (processText unixParams ((List.replicate 2050 55).drop
             ((List.replicate 2050 55).length - (List.replicate 2050 55).length % 1024))),
           Event.csvFlush])) ∧
    ((List.replicate 2050 55).drop
      ((List.replicate 2050 55).length - (List.replicate 2050 55).length % 1024)).length =
        (List.replicate 2050 55).length % 1024 ∧
    (∀ pre c post, List.replicate 2050 55 = pre ++ c :: post →
      ∃ b1, feed unixParams ⟨List.replicate 1024 0, 0⟩ pre =
          some (⟨b1, ((pre.length % 1024 : ℕ) : ℤ)⟩,
            List.replicate (pre.length / 1024) Event.overflow) ∧
        step unixParams ⟨b1, ((pre.length % 1024 : ℕ) : ℤ)⟩ c =
          if pre.length % 1024 < 1023 then
            some (⟨b1.set (pre.length % 1024) c, ((pre.length % 1024 + 1 : ℕ) : ℤ)⟩, [])
          else some (⟨b1, 0⟩, [Event.overflow])) :=
  overflow_exact unixParams (List.replicate 2050 55) (List.replicate 1024 0)
    (fun c hc => by rw [List.eq_of_mem_replicate hc]; decide) (List.length_replicate _ _)

/-- The witness of C10 in numbers: 2050 bytes `'7'` and a `'\n'` give two overflow reports
and then the Record `77`, the last `2050 % 1024 = 2` bytes, written as -2920. -/
theorem overflow_exact_at_2050 :
    (feed unixParams ⟨List.replicate 1024 0, 0⟩ (List.replicate 2050 55 ++ [NEWLINE])).map
        (fun r => (r.1.buffer_index, r.2)) =
      some (0, [Event.overflow, Event.overflow, Event.record [55, 55],
        Event.stdout (some (-2920)), Event.csvWrite (some (-2920)), Event.csvFlush]) := by
  obtain ⟨b, hb, -⟩ := feed_run_newline unixParams (List.replicate 2050 55)
    (List.replicate 1024 0) (fun c hc => by rw [List.eq_of_mem_replicate hc]; decide)
    (List.length_replicate _ _)
  have hv : processText unixParams [55, 55] = some (-2920) := by decide!
  have h1 : (List.replicate 2050 55).length / BUFFER_SIZE = 2 := by
    rw [List.length_replicate]; rfl
  have h2 : (List.replicate 2050 55).drop ((List.replicate 2050 55).length -
      (List.replicate 2050 55).length % BUFFER_SIZE) = [55, 55] := by
    rw [List.length_replicate, List.drop_replicate]; rfl
  rw [hb, h1, h2, hv]
  rfl

/-- C4, as the code behaves: after the overflow at its 1024th byte the rest of an oversized
record is stored again, and the next `'\n'` hands it to the record processor.  Here a record
of 1025 bytes `'1'` gives one overflow report and then the Record `1`, written as -3034. -/
theorem overflow_tail_is_processed :
    (feed unixParams ⟨List.replicate 1024 0, 0⟩ (List.replicate 1025 49 ++ [NEWLINE])).map
        (fun r => (r.1.buffer_index, r.2)) =
      some (0, [Event.overflow, Event.record [49], Event.stdout (some (-3034)),
        Event.csvWrite (some (-3034)), Event.csvFlush]) := by
  obtain ⟨b, hb, -⟩ := feed_run_newline unixParams (List.replicate 1025 49)
    (List.replicate 1024 0) (fun c hc => by rw [List.eq_of_mem_replicate hc]; decide)
    (List.length_replicate _ _)
  have hv : processText unixParams [49] = some (-3034) := by decide!
  have h1 : (List.replicate 1025 49).length / BUFFER_SIZE = 1 := by
    rw [List.length_replicate]; rfl
  have h2 : (List.replicate 1025 49).drop ((List.replicate 1025 49).length -
      (List.replicate 1025 49).length % BUFFER_SIZE) = [49] := by
    rw [List.length_replicate, List.drop_replicate]; rfl
  rw [hb, h1, h2, hv]
  rfl

/-- C4, amended.  For a record `r` of `L ≥ 1024` bytes without `'\n'`, fed into an empty
Line Buffer: its first 1024 bytes give exactly one overflow report and nothing else, the
array then holds the first 1023 bytes and `buffer_index = 0` (the 1024th byte is dropped);
the bytes after an overflow are stored again from the empty buffer, so the whole trace of
`r` and its `'\n'` is `L / 1024 ≥ 1` overflow reports followed by one Record, the last
`L % 1024` bytes of `r`, which is processed, written and flushed; after that `'\n'`
`buffer_index` is 0 and the bytes that follow are processed from there. -/
theorem overflow_reset_keeps_tail (p : Params) (r rest buf : List ℕ)
    (hnl : ∀ c ∈ r, c ≠ NEWLINE) (hlong : BUFFER_SIZE ≤ r.length)
    (hlen : buf.length = BUFFER_SIZE) :
    (∃ b1, feed p ⟨buf, 0⟩ (r.take BUFFER_SIZE) = some (⟨b1, 0⟩, [Event.overflow]) ∧
      b1.length = BUFFER_SIZE ∧ b1.take (BUFFER_SIZE - 1) = r.take (BUFFER_SIZE - 1)) ∧
    ∃ b2, feed p ⟨buf, 0⟩ (r ++ [NEWLINE]) = some (⟨b2, 0⟩,
        List.replicate (r.length / BUFFER_SIZE) Event.overflow ++
          [Event.record (r.drop (r.length - r.length % BUFFER_SIZE)),
           Event.stdout (processText p (r.drop (r.length - r.length % BUFFER_SIZE))),
           Event.csvWrite (processText p (r.drop (r.length - r.length % BUFFER_SIZE))),
           Event.csvFlush]) ∧
      1 ≤ r.length / BUFFER_SIZE ∧
      (r.drop (r.length - r.length % BUFFER_SIZE)).length = r.length % BUFFER_SIZE ∧
      b2.length = BUFFER_SIZE ∧
      feed p ⟨buf, 0⟩ (r ++ NEWLINE :: rest) =
        (feed p ⟨b2, 0⟩ rest).map fun x =>
          (x.1, (List.replicate (r.length / BUFFER_SIZE) Event.overflow ++
            [Event.record (r.drop (r.length - r.length % BUFFER_SIZE)),
             Event.stdout (processText p (r.drop (r.length - r.length % BUFFER_SIZE))),
             Event.csvWrite (processText p (r.drop (r.length - r.length % BUFFER_SIZE))),
             Event.csvFlush]) ++ x.2) := by
  have hB : BUFFER_SIZE = 1024 := rfl
  constructor
  · have hl1 : (r.take 1023).length = 1023 := List.length_take_of_le (by omega)
    obtain ⟨b1, hb1, hb1len, hb1take⟩ := feed_run_fits p (r.take 1023) buf 0
      (fun c hc => hnl c (List.mem_of_mem_take hc)) hlen (by omega)
    have hb1z : feed p ⟨buf, 0⟩ (r.take 1023) = some (⟨b1, ((1023 : ℕ) : ℤ)⟩, []) := by
      simpa [hl1] using hb1
    cases hd : r.drop 1023 with
    | nil =>
      have : (r.drop 1023).length = 0 := by rw [hd]; rfl
      rw [List.length_drop] at this
      omega
    | cons c r2 =>
      have hc : c ≠ NEWLINE := hnl c (List.mem_of_mem_drop (by rw [hd]; simp))
      have htake : r.take BUFFER_SIZE = r.take 1023 ++ [c] := by
        have h1 : r.take (1023 + 1) = r.take 1023 ++ (r.drop 1023).take 1 := List.take_add r 1023 1
        rw [hd] at h1
        simpa [hB] using h1
      refine ⟨b1, ?_, hb1len, ?_⟩
      · rw [htake, feed_append, hb1z]
        simp only [Option.some_bind, feed_singleton]
        rw [step_overflow p b1 1023 c hc (by rw [hB])]
        rfl
      · have : BUFFER_SIZE - 1 = 1023 := by rw [hB]
        rw [this]
        simpa [hl1] using hb1take
  · obtain ⟨b2, hb2, hb2len⟩ := feed_run_newline p r buf hnl hlen
    refine ⟨b2, hb2, (Nat.one_le_div_iff (by decide)).2 hlong, ?_, hb2len, ?_⟩
    · have := Nat.mod_le r.length BUFFER_SIZE
      rw [List.length_drop]; omega
    · have : r ++ NEWLINE :: rest = (r ++ [NEWLINE]) ++ rest := by simp
      rw [this, feed_append, hb2]
      rfl

theorem overflow_reset_keeps_tail_witness :
    (∃ b1, feed unixParams ⟨List.replicate 1024 0, 0⟩
        ((List.replicate 1030 57).take BUFFER_SIZE) = some (⟨b1, 0⟩, [Event.overflow]) ∧
      b1.length = BUFFER_SIZE ∧
      b1.take (BUFFER_SIZE - 1) = (List.replicate 1030 57).take (BUFFER_SIZE - 1)) ∧
    ∃ b2, feed unixParams ⟨List.replicate 1024 0, 0⟩ (List.replicate 1030 57 ++ [NEWLINE]) =
        some (⟨b2, 0⟩,
          List.replicate ((List.replicate 1030 57).length / BUFFER_SIZE) Event.overflow ++
            [Event.record ((List.replicate 1030 57).drop
               ((List.replicate 1030 57).length - (List.replicate 1030 57).length % BUFFER_SIZE)),
             Event.stdout (processText unixParams ((List.replicate 1030 57).drop
               ((List.replicate 1030 57).length - (List.replicate 1030 57).length % BUFFER_SIZE))),
             Event.csvWrite (processText unixParams ((List.replicate 1030 57).drop
               ((List.replicate 1030 57).length - (List.replicate 1030 57).length % BUFFER_SIZE))),
             Event.csvFlush]) ∧
      1 ≤ (List.replicate 1030 57).length / BUFFER_SIZE ∧
      ((List.replicate 1030 57).drop
        ((List.replicate 1030 57).length - (List.replicate 1030 57).length % BUFFER_SIZE)).length =
          (List.replicate 1030 57).length % BUFFER_SIZE ∧
      b2.length = BUFFER_SIZE ∧
      feed unixParams ⟨List.replicate 1024 0, 0⟩ (List.replicate 1030 57 ++ NEWLINE :: [50, 10]) =
        (feed unixParams ⟨b2, 0⟩ [50, 10]).map fun x =>
          (x.1, (List.replicate ((List.replicate 1030 57).length / BUFFER_SIZE) Event.overflow ++
            [Event.record ((List.replicate 1030 57).drop
               ((List.replicate 1030 57).length - (List.replicate 1030 57).length % BUFFER_SIZE)),
             Event.stdout (processText unixParams ((List.replicate 1030 57).drop
               ((List.replicate 1030 57).length - (List.replicate 1030 57).length % BUFFER_SIZE))),
             Event.csvWrite (processText unixParams ((List.replicate 1030 57).drop
               ((List.replicate 1030 57).length - (List.replicate 1030 57).length % BUFFER_SIZE))),
             Event.csvFlush]) ++ x.2) :=
  overflow_reset_keeps_tail unixParams (List.replicate 1030 57) [50, 10] (List.replicate 1024 0)
    (fun c hc => by rw [List.eq_of_mem_replicate hc]; decide)
    (by rw [List.length_replicate]; decide) (List.length_replicate _ _)

/-- The witness of C4 in numbers: 1030 bytes `'9'`, a `'\n'`, then `2` and a `'\n'` give one
overflow report, the Record `999999` (the last `1030 % 1024 = 6` bytes of the oversized
record) written as 1496962, and then the Record `2` on its own, written as -3033. -/
theorem overflow_reset_at_1030 :
    (feed unixParams ⟨List.replicate 1024 0, 0⟩
        (List.replicate 1030 57 ++ NEWLINE :: [50, 10])).map (fun r => (r.1.buffer_index, r.2)) =
      some (0, [Event.overflow, Event.record [57, 57, 57, 57, 57, 57],
        Event.stdout (some 1496962), Event.csvWrite (some 1496962), Event.csvFlush,
        Event.record [50], Event.stdout (some (-3033)), Event.csvWrite (some (-3033)),
        Event.csvFlush]) := by
  obtain ⟨b, hb, hblen⟩ := feed_run_newline unixParams (List.replicate 1030 57)
    (List.replicate 1024 0) (fun c hc => by rw [List.eq_of_mem_replicate hc]; decide)
    (List.length_replicate _ _)
  obtain ⟨b3, hb3, -⟩ := feed_short_record unixParams [50] b (by decide) (by decide) hblen
  have hv : processText unixParams [57, 57, 57, 57, 57, 57] = some 1496962 := by decide!
  have hw : processText unixParams [50] = some (-3033) := by decide!
  have h1 : (List.replicate 1030 57).length / BUFFER_SIZE = 1 := by
    rw [List.length_replicate]; rfl
  have h2 : (List.replicate 1030 57).drop ((List.replicate 1030 57).length -
      (List.replicate 1030 57).length % BUFFER_SIZE) = [57, 57, 57, 57, 57, 57] := by
    rw [List.length_replicate, List.drop_replicate]; rfl
  have hsplit : List.replicate 1030 57 ++ NEWLINE :: [50, 10] =
      (List.replicate 1030 57 ++ [NEWLINE]) ++ ([50] ++ [NEWLINE]) := by
    rw [List.append_assoc]; rfl
  rw [hsplit, feed_append, hb, h1, h2, hv]
  simp only [Option.some_bind]
  rw [hb3, hw]
  rfl

/-! ## The run loop -/

/-- C8: read errors are never fatal.  In both variants, from every state of the loop and for
every outcome of the read (failure, zero bytes, or some bytes), one iteration of `while (1)`
ends back at the read, never at the code after the loop.  After a failed read and after a
read of zero bytes the Line Buffer is unchanged and nothing is written to the CSV file (the
only event is the error report or the pause). -/
theorem read_errors_not_fatal (p : Params) (s : LineState) (r : ReadOutcome)
    (hs : wellFormed s) :
    (∃ s1 ev1, unixIteration p s r = some (Control.reading, s1, ev1)) ∧
    (∃ s2 ev2, winIteration p s r = some (Control.reading, s2, ev2)) ∧
    unixIteration p s ReadOutcome.error = some (Control.reading, s, [Event.readError]) ∧
    unixIteration p s (ReadOutcome.bytes []) = some (Control.reading, s, [Event.sleep]) ∧
    winIteration p s ReadOutcome.error = some (Control.reading, s, [Event.sleep]) ∧
    winIteration p s (ReadOutcome.bytes []) = some (Control.reading, s, [Event.sleep]) := by
  refine ⟨?_, ?_, by simp [unixIteration, unixNBytes], by simp [unixIteration, unixNBytes],
    by simp [winIteration, winNBytes], by simp [winIteration, winNBytes]⟩
  · cases r with
    | error => exact ⟨s, [Event.readError], by simp [unixIteration, unixNBytes]⟩
    | bytes d =>
      unfold unixIteration
      simp only [unixNBytes]
      split
      · obtain ⟨res, hres, -⟩ := feed_wellFormed p (chunkData (ReadOutcome.bytes d)
          ((min d.length CHUNK_SIZE : ℕ) : ℤ).toNat) s hs
        exact ⟨res.1, res.2 ++ [Event.sleep], by rw [hres]; rfl⟩
      · split
        · exact ⟨s, _, rfl⟩
        · exact ⟨s, _, rfl⟩
  · cases r with
    | error => exact ⟨s, [Event.sleep], by simp [winIteration, winNBytes]⟩
    | bytes d =>
      unfold winIteration
      simp only [winNBytes]
      split
      · obtain ⟨res, hres, -⟩ := feed_wellFormed p (chunkData (ReadOutcome.bytes d)
          (min d.length CHUNK_SIZE)) s hs
        exact ⟨res.1, res.2 ++ [Event.sleep], by rw [hres]; rfl⟩
      · split
        · rename_i h; exact absurd h (Nat.not_lt_zero _)
        · exact ⟨s, _, rfl⟩

theorem read_errors_not_fatal_witness :
    (∃ s1 ev1, unixIteration unixParams ⟨List.replicate 1024 0, 0⟩ ReadOutcome.error =
      some (Control.reading, s1, ev1)) ∧
    (∃ s2 ev2, winIteration unixParams ⟨List.replicate 1024 0, 0⟩ ReadOutcome.error =
      some (Control.reading, s2, ev2)) ∧
    unixIteration unixParams ⟨List.replicate 1024 0, 0⟩ ReadOutcome.error =
      some (Control.reading, ⟨List.replicate 1024 0, 0⟩, [Event.readError]) ∧
    unixIteration unixParams ⟨List.replicate 1024 0, 0⟩ (ReadOutcome.bytes []) =
      some (Control.reading, ⟨List.replicate 1024 0, 0⟩, [Event.sleep]) ∧
    winIteration unixParams ⟨List.replicate 1024 0, 0⟩ ReadOutcome.error =
      some (Control.reading, ⟨List.replicate 1024 0, 0⟩, [Event.sleep]) ∧
    winIteration unixParams ⟨List.replicate 1024 0, 0⟩ (ReadOutcome.bytes []) =
      some (Control.reading, ⟨List.replicate 1024 0, 0⟩, [Event.sleep]) :=
  read_errors_not_fatal unixParams ⟨List.replicate 1024 0, 0⟩ ReadOutcome.error
    (wellFormed_init _ (List.length_replicate _ _))

/-! ## The record processor -/

/-- C7 at the record text `nan`: it has no digit at its start, yet `strtod` converts it to a
NaN, not to 0; no value `(0 - offset) * scale` is written for it (the conversion of a NaN to
`int` has no defined result, so the trace carries no value). -/
theorem nan_is_not_parsed_to_zero :
    digitStart [110, 97, 110] = false ∧
    strtodNonFinite (cstring ([110, 97, 110] ++ [0])) = some NonFinite.nan ∧
    atof ([110, 97, 110] ++ [0]) ≠ some 0 ∧
    processText unixParams [110, 97, 110] ≠
      some ((0 - unixParams.offset) * unixParams.scaling_factor) ∧
    (feed unixParams ⟨List.replicate 1024 0, 0⟩ [110, 97, 110, 10]).map (fun r => r.2) =
      some [Event.record [110, 97, 110], Event.stdout none, Event.csvWrite none,
        Event.csvFlush] := by
  have ha : atof ([110, 97, 110] ++ [0]) = none :=
    strtod_of_nonFinite _ NonFinite.nan (by decide)
  have hp : processText unixParams [110, 97, 110] = none := by
    unfold processText processRecord
    rw [ha]; rfl
  refine ⟨by decide, by decide, by rw [ha]; simp, by rw [hp]; simp, ?_⟩
  obtain ⟨b, hb, -⟩ := feed_short_record unixParams [110, 97, 110] (List.replicate 1024 0)
    (by decide) (by decide) (List.length_replicate _ _)
  have : ([110, 97, 110, 10] : List ℕ) = [110, 97, 110] ++ [NEWLINE] := rfl
  rw [this, hb, hp]
  rfl

/-- C7, amended: permissive parse to zero.  In both variants, for every record text that
does not start (after white space and an optional sign) with a digit, a point followed by a
digit, or the words `inf` or `nan` in any letter case, the call `atof(buffer)` yields 0
whatever follows the terminating `'\0'`, and the value written is `(0 - offset) * scale`.
In particular two `'\n'` fed into an empty Line Buffer give two Records of empty text, each
written as `(0 - offset) * scale` and flushed. -/
theorem permissive_parse_zero (p : Params) (hp : p = unixParams ∨ p = winParams)
    (text buf : List ℕ) (htext : numericStart text = false) (hlen : buf.length = BUFFER_SIZE) :
    (∀ stale, atof (text ++ 0 :: stale) = some 0) ∧
    processText p text = some ((0 - p.offset) * p.scaling_factor) ∧
    ∃ b, feed p ⟨buf, 0⟩ [NEWLINE, NEWLINE] = some (⟨b, 0⟩,
      [Event.record [], Event.stdout (some ((0 - p.offset) * p.scaling_factor)),
       Event.csvWrite (some ((0 - p.offset) * p.scaling_factor)), Event.csvFlush,
       Event.record [], Event.stdout (some ((0 - p.offset) * p.scaling_factor)),
       Event.csvWrite (some ((0 - p.offset) * p.scaling_factor)), Event.csvFlush]) := by
  have key : ∀ t : List ℕ, numericStart t = false →
      processText p t = some ((0 - p.offset) * p.scaling_factor) := by
    intro t h
    have h0 : atof (t ++ [0]) = some 0 := by
      rw [atof_append_zero, strtod_cstring_of_not_numericStart t h]
    unfold processText
    rcases hp with rfl | rfl
    · rw [processRecord_small unixParams 3 (by decide) (by simp [unixParams]) rfl _ 0 h0
        (by norm_num)]
      decide!
    · rw [processRecord_small winParams 5 (by decide) (by simp [winParams]) rfl _ 0 h0
        (by norm_num)]
      decide!
  refine ⟨fun stale => ?_, key text htext, ?_⟩
  · rw [atof_append_zero, strtod_cstring_of_not_numericStart text htext]
  · have hv := key [] (by decide)
    obtain ⟨b1, hb1, hb1len⟩ := feed_run_newline p [] buf (by simp) hlen
    obtain ⟨b2, hb2, -⟩ := feed_run_newline p [] b1 (by simp) hb1len
    refine ⟨b2, ?_⟩
    have : [NEWLINE, NEWLINE] = ([] ++ [NEWLINE]) ++ ([] ++ [NEWLINE]) := rfl
    rw [this, feed_append, hb1]
    simp only [Option.some_bind]
    rw [hb2]
    simp [hv]

theorem permissive_parse_zero_witness :
    (∀ stale, atof ([97, 98, 99] ++ 0 :: stale) = some 0) ∧
    processText unixParams [97, 98, 99] =
      some ((0 - unixParams.offset) * unixParams.scaling_factor) ∧
    ∃ b, feed unixParams ⟨List.replicate 1024 0, 0⟩ [NEWLINE, NEWLINE] = some (⟨b, 0⟩,
      [Event.record [],
       Event.stdout (some ((0 - unixParams.offset) * unixParams.scaling_factor)),
       Event.csvWrite (some ((0 - unixParams.offset) * unixParams.scaling_factor)),
       Event.csvFlush,
       Event.record [],
       Event.stdout (some ((0 - unixParams.offset) * unixParams.scaling_factor)),
       Event.csvWrite (some ((0 - unixParams.offset) * unixParams.scaling_factor)),
       Event.csvFlush]) :=
  permissive_parse_zero unixParams (Or.inl rfl) [97, 98, 99] (List.replicate 1024 0)
    (by decide) (List.length_replicate _ _)

/-- C9: integer truncation in the transform.  In both variants, when `atof(buffer)` yields
`v` with `|v| ≤ 2 ^ 21` (so that every conversion between `int` and `float` is exact), the
value written is `trunc (trunc (trunc v - offset) * scale)`, truncation being toward zero: a
whole number.  In the UNIX variant the record `2031` is written as `10.000000` and the
record `2030.7` as `9.000000`. -/
theorem integer_truncation (p : Params) (hp : p = unixParams ∨ p = winParams)
    (buffer : List ℕ) (v : ℚ) (hv : atof buffer = some v) (hsmall : |v| ≤ 2 ^ 21) :
    processRecord p buffer =
      some ((truncQ (((truncQ (((truncQ v : ℤ) : ℚ) - p.offset) : ℤ) : ℚ) *
        p.scaling_factor) : ℤ) : ℚ) ∧
    processText unixParams [50, 48, 51, 49] = some 10 ∧
    (processText unixParams [50, 48, 51, 49]).map fmt_f = some "10.000000" ∧
    processText unixParams [50, 48, 51, 48, 46, 55] = some 9 ∧
    (processText unixParams [50, 48, 51, 48, 46, 55]).map fmt_f = some "9.000000" := by
  refine ⟨?_, by decide!, by decide!, by decide!, by decide!⟩
  rcases hp with rfl | rfl
  · exact processRecord_small unixParams 3 (by decide) (by simp [unixParams]) rfl buffer v hv
      hsmall
  · exact processRecord_small winParams 5 (by decide) (by simp [winParams]) rfl buffer v hv
      hsmall

theorem integer_truncation_witness :
    processRecord winParams [50, 48, 51, 49, 0] =
      some ((truncQ (((truncQ (((truncQ 2031 : ℤ) : ℚ) - winParams.offset) : ℤ) : ℚ) *
        winParams.scaling_factor) : ℤ) : ℚ) ∧
    processText unixParams [50, 48, 51, 49] = some 10 ∧
    (processText unixParams [50, 48, 51, 49]).map fmt_f = some "10.000000" ∧
    processText unixParams [50, 48, 51, 48, 46, 55] = some 9 ∧
    (processText unixParams [50, 48, 51, 48, 46, 55]).map fmt_f = some "9.000000" :=
  integer_truncation winParams (Or.inr rfl) [50, 48, 51, 49, 0] 2031 (by decide!)
    (by norm_num)

/-- C3 at the record `2031` (UNIX variant): `atof` yields 2031, the value written is 10 and
the line is `10.000000`, while `(2031 - offset) * scale` is 10.5. -/
theorem transform_of_2031 :
    atof [50, 48, 51, 49, 0] = some 2031 ∧
    processText unixParams [50, 48, 51, 49] = some 10 ∧
    (2031 - unixParams.offset) * unixParams.scaling_factor = 21 / 2 ∧
    (feed unixParams ⟨List.replicate 1024 0, 0⟩ [50, 48, 51, 49, 10]).map
      (fun r => csvLines r.2) = some [some "10.000000\n"] := by
  refine ⟨by decide!, by decide!, by decide!, by decide!⟩

/-! ## End to end -/

/-- C6: end-to-end output.  From an empty Line Buffer, for every list of chunks, the loop
writes exactly one CSV line for each `'\n'` received; the values written are those of the
records, in the order of the records; and every write is immediately followed by the flush.
With `offset = 0` and `scale = 1`, the chunks `10\n2` and `0\n` give the records `10` and
`20`, written as the lines `10.000000` and `20.000000`, each flushed before the next byte. -/
theorem csv_line_per_newline (p : Params) (buf : List ℕ) (chunks : List (List ℕ))
    (hlen : buf.length = BUFFER_SIZE) :
    (∃ s evs, feedChunks p ⟨buf, 0⟩ chunks = some (s, evs) ∧
      (csvValues evs).length = chunks.flatten.count NEWLINE ∧
      csvValues evs = (recordsOf evs).map (processText p) ∧
      flushedWrites evs) ∧
    (∃ b, feedChunks ⟨1, 0⟩ ⟨buf, 0⟩ [[49, 48, 10, 50], [48, 10]] = some (⟨b, 0⟩,
      [Event.record [49, 48], Event.stdout (some 10), Event.csvWrite (some 10), Event.csvFlush,
       Event.record [50, 48], Event.stdout (some 20), Event.csvWrite (some 20),
       Event.csvFlush])) ∧
    csvLines [Event.record [49, 48], Event.stdout (some 10), Event.csvWrite (some 10),
      Event.csvFlush, Event.record [50, 48], Event.stdout (some 20), Event.csvWrite (some 20),
      Event.csvFlush] = [some "10.000000\n", some "20.000000\n"] := by
  refine ⟨?_, ?_, by decide!⟩
  · obtain ⟨r, hr, -, hcount, hvals, hflush⟩ :=
      feed_trace p chunks.flatten ⟨buf, 0⟩ (wellFormed_init buf hlen)
    exact ⟨r.1, r.2, by rw [feedChunks_eq_feed_flatten, hr], hcount, hvals, hflush⟩
  · obtain ⟨b1, hb1, hb1len⟩ := feed_short_record ⟨1, 0⟩ [49, 48] buf (by decide) (by decide) hlen
    obtain ⟨b2, hb2, -⟩ := feed_short_record ⟨1, 0⟩ [50, 48] b1 (by decide) (by decide) hb1len
    have h10 : processText ⟨1, 0⟩ [49, 48] = some 10 := by decide!
    have h20 : processText ⟨1, 0⟩ [50, 48] = some 20 := by decide!
    refine ⟨b2, ?_⟩
    rw [feedChunks_eq_feed_flatten]
    have : ([[49, 48, 10, 50], [48, 10]] : List (List ℕ)).flatten =
        ([49, 48] ++ [NEWLINE]) ++ ([50, 48] ++ [NEWLINE]) := rfl
    rw [this, feed_append, hb1]
    simp only [Option.some_bind]
    rw [hb2, h10, h20]
    rfl

theorem csv_line_per_newline_witness :
    (∃ s evs, feedChunks unixParams ⟨List.replicate 1024 0, 0⟩ [[49, 48, 10, 50], [48, 10]] =
        some (s, evs) ∧
      (csvValues evs).length = ([[49, 48, 10, 50], [48, 10]] : List (List ℕ)).flatten.count NEWLINE ∧
      csvValues evs = (recordsOf evs).map (processText unixParams) ∧
      flushedWrites evs) ∧
    (∃ b, feedChunks ⟨1, 0⟩ ⟨List.replicate 1024 0, 0⟩ [[49, 48, 10, 50], [48, 10]] =
      some (⟨b, 0⟩,
      [Event.record [49, 48], Event.stdout (some 10), Event.csvWrite (some 10), Event.csvFlush,
       Event.record [50, 48], Event.stdout (some 20), Event.csvWrite (some 20),
       Event.csvFlush])) ∧
    csvLines [Event.record [49, 48], Event.stdout (some 10), Event.csvWrite (some 10),
      Event.csvFlush, Event.record [50, 48], Event.stdout (some 20), Event.csvWrite (some 20),
      Event.csvFlush] = [some "10.000000\n", some "20.000000\n"] :=
  csv_line_per_newline unixParams (List.replicate 1024 0) [[49, 48, 10, 50], [48, 10]]
    (List.length_replicate _ _)

end Serial2CSV
